import Mathlib

/-!
Shallow embedding of the disk-usage reporting programs
`src/C++/dirchk.cpp` and `src/C++/diskstat.cpp`.

The filesystem seen by one run of the program is modelled as a tree of
entries.  A regular file carries the name and size the OS would report,
together with a flag telling whether `entry.file_size()` succeeds (a file
that vanished mid-walk, or whose metadata is unreadable, throws
`filesystem_error`, modelled by `statOk = false`).  A directory carries a
flag telling whether `fs::directory_iterator` can open it.  Any entry that
is neither a directory nor a regular file (socket, device node, broken
symlink, ...) is `other`.
-/

inductive Entry : Type where
  | file (name : String) (size : Nat) (statOk : Bool)
  | dir (name : String) (readable : Bool) (children : List Entry)
  | other (name : String)

/-- An association list modelling the C++ map from extension to cumulative
byte count (`std::unordered_map` in dirchk, `std::map` in diskstat).
Only its key/value content matters for the claims; insertion order is kept. -/
abbrev ExtMap := List (String × Nat)

/-- `m[k] += v` : `operator[]` default-inserts `0` for a missing key, then adds. -/
def ExtMap.add (m : ExtMap) (k : String) (v : Nat) : ExtMap :=
  match m with
  | [] => [(k, v)]
  | (k₁, v₁) :: t => if k₁ = k then (k₁, v₁ + v) :: t else (k₁, v₁) :: ExtMap.add t k v

/-- The per-key-sum merge loop `for ([ext, size] : sub) du.ext_usage[ext] += size`. -/
def ExtMap.merge (m sub : ExtMap) : ExtMap :=
  sub.foldl (fun acc p => acc.add p.1 p.2) m

/-- Value stored at a key (`0` when absent). -/
def ExtMap.find (m : ExtMap) (k : String) : Nat :=
  match m with
  | [] => 0
  | (k₁, v₁) :: t => if k₁ = k then v₁ else ExtMap.find t k

/-- Sum of all stored values. -/
def ExtMap.total (m : ExtMap) : Nat := (m.map Prod.snd).sum

/-- `std::filesystem::path::extension()` of a filename, as a character list:
the substring from the rightmost `'.'` to the end, except that a dot in the
first position never starts an extension (a dotfile such as `".bashrc"` has
no extension) and `"."`/`".."` have none.  The search therefore only looks
at the characters after the first one. -/
def extTail : List Char → Option (List Char)
  | [] => none
  | c :: rest =>
    match extTail rest with
    | some e => some e
    | none => if c = '.' then some (c :: rest) else none

/-- `entry.path().extension().string()` for a filename. -/
def extOf (name : String) : String :=
  if name = "." ∨ name = ".." then "" else
  match name.toList with
  | [] => ""
  | _ :: rest =>
    match extTail rest with
    | some e => String.mk e
    | none => ""

/-- Result of dirchk's `get_disk_usage`: total size and per-extension usage.
The `Error accessing: <path>` diagnostics dirchk prints on `cerr` (and the
strings diskstat pushes on `error_logs`) are modelled by the list of paths
at which a `filesystem_error` was caught. -/
structure DiskUsage where
  size : Nat
  ext_usage : ExtMap
  errors : List String
deriving Repr, DecidableEq

/-- Path of a directory entry, from the path of the directory being iterated. -/
def childPath (p n : String) : String := p ++ "/" ++ n

mutual

/-- dirchk `get_disk_usage(path)`.  Opening the iterator on an unreadable
directory (or a path that is not a directory at all) throws, which the
`catch` turns into one error record and an empty result. -/
def get_disk_usage (path : String) : Entry → DiskUsage
  | .dir _ true cs => walk path cs ⟨0, [], []⟩
  | _ => ⟨0, [], [path]⟩

/-- The `for (entry : fs::directory_iterator(path))` body of dirchk's
`get_disk_usage`, threading the accumulated `du`.  A file whose
`file_size()` throws transfers control to the `catch` outside the loop:
one error is recorded and the remaining entries of this level are not
visited. -/
def walk (path : String) : List Entry → DiskUsage → DiskUsage
  | [], du => du
  | .dir n r cs :: rest, du =>
    let sub := get_disk_usage (childPath path n) (.dir n r cs)
    walk path rest ⟨du.size + sub.size, du.ext_usage.merge sub.ext_usage,
                    du.errors ++ sub.errors⟩
  | .file n s true :: rest, du =>
    walk path rest ⟨du.size + s, du.ext_usage.add (extOf n) s, du.errors⟩
  | .file _ _ false :: _, du => ⟨du.size, du.ext_usage, du.errors ++ [path]⟩
  | .other _ :: rest, du => walk path rest du
end

/-- A regular file whose metadata can be read; directories and other
entries are unconstrained (a subdirectory that cannot be opened is handled
inside its own recursive call and never aborts the parent's loop). -/
def statOkTop : Entry → Bool
  | .file _ _ ok => ok
  | _ => true

/-- The number of bytes one immediate child adds to its parent's total:
a regular file its own size, a subdirectory its recursively computed
total, anything else nothing. -/
def childContrib (p : String) : Entry → Nat
  | .file _ s _ => s
  | .dir n r cs => (get_disk_usage (childPath p n) (.dir n r cs)).size
  | .other _ => 0

/-- Total of the values bound to `k` in an association list (counting
duplicate keys, unlike `ExtMap.find`; the two agree on the
duplicate-free maps the program builds). -/
def ExtMap.keySum (m : ExtMap) (k : String) : Nat :=
  (m.map (fun p => if p.1 = k then p.2 else 0)).sum

/-- The number of bytes one immediate child adds to the parent's total for
extension key `k`. -/
def childKey (p k : String) : Entry → Nat
  | .file n s _ => if extOf n = k then s else 0
  | .dir n r cs => ((get_disk_usage (childPath p n) (.dir n r cs)).ext_usage).keySum k
  | .other _ => 0

theorem ExtMap.add_total (m : ExtMap) (k : String) (v : Nat) :
    (m.add k v).total = m.total + v := by
  induction m with
  | nil => simp [ExtMap.add, ExtMap.total]
  | cons p t ih =>
    obtain ⟨k₁, v₁⟩ := p
    by_cases h : k₁ = k <;> simp [ExtMap.add, ExtMap.total, h] <;>
      simp [ExtMap.total] at ih <;> omega

theorem ExtMap.merge_total (m s : ExtMap) :
    (m.merge s).total = m.total + s.total := by
  induction s generalizing m with
  | nil => simp [ExtMap.merge, ExtMap.total]
  | cons p t ih =>
    obtain ⟨k₁, v₁⟩ := p
    have h1 : (m.merge ((k₁, v₁) :: t)) = (m.add k₁ v₁).merge t := by
      simp [ExtMap.merge]
    rw [h1, ih, ExtMap.add_total]
    simp [ExtMap.total]
    omega

theorem ExtMap.add_find (m : ExtMap) (k : String) (v : Nat) (k₂ : String) :
    (m.add k v).find k₂ = m.find k₂ + (if k = k₂ then v else 0) := by
  induction m with
  | nil => by_cases h : k = k₂ <;> simp [ExtMap.add, ExtMap.find, h]
  | cons p t ih =>
    obtain ⟨k₁, v₁⟩ := p
    by_cases h1 : k₁ = k
    · by_cases h2 : k₁ = k₂
      · have h3 : k = k₂ := h1 ▸ h2
        simp [ExtMap.add, ExtMap.find, h1, h2, h3]
      · have h3 : ¬ k = k₂ := fun h => h2 (h1.trans h)
        simp [ExtMap.add, ExtMap.find, h1, h2, h3]
    · by_cases h2 : k₁ = k₂
      · have h3 : ¬ k = k₂ := fun h => h1 (h2.trans h.symm)
        have h4 : ¬ k₂ = k := fun h => h3 h.symm
        subst h2
        simp [ExtMap.add, ExtMap.find, h3, h4]
      · simp [ExtMap.add, ExtMap.find, h1, h2, ih]

theorem ExtMap.merge_find (m s : ExtMap) (k : String) :
    (m.merge s).find k = m.find k + s.keySum k := by
  induction s generalizing m with
  | nil => simp [ExtMap.merge, ExtMap.keySum]
  | cons p t ih =>
    obtain ⟨k₁, v₁⟩ := p
    have h1 : (m.merge ((k₁, v₁) :: t)) = (m.add k₁ v₁).merge t := by
      simp [ExtMap.merge]
    rw [h1, ih, ExtMap.add_find]
    simp [ExtMap.keySum]
    omega

theorem walk_nofail_size (path : String) (l : List Entry) (du : DiskUsage)
    (h : ∀ e ∈ l, statOkTop e = true) :
    (walk path l du).size = du.size + (l.map (childContrib path)).sum := by
  induction l generalizing du with
  | nil => simp [walk]
  | cons e rest ih =>
    have hrest : ∀ e ∈ rest, statOkTop e = true := fun x hx => h x (List.mem_cons_of_mem _ hx)
    match e with
    | .dir n r cs =>
      rw [show walk path (Entry.dir n r cs :: rest) du =
        walk path rest ⟨du.size + (get_disk_usage (childPath path n) (.dir n r cs)).size,
          du.ext_usage.merge (get_disk_usage (childPath path n) (.dir n r cs)).ext_usage,
          du.errors ++ (get_disk_usage (childPath path n) (.dir n r cs)).errors⟩ from rfl]
      rw [ih _ hrest]
      simp [childContrib]
      omega
    | .file n s true =>
      rw [show walk path (Entry.file n s true :: rest) du =
        walk path rest ⟨du.size + s, du.ext_usage.add (extOf n) s, du.errors⟩ from rfl]
      rw [ih _ hrest]
      simp [childContrib]
      omega
    | .file n s false =>
      have := h (.file n s false) (List.mem_cons_self _ _)
      simp [statOkTop] at this
    | .other n =>
      rw [show walk path (Entry.other n :: rest) du = walk path rest du from rfl]
      rw [ih _ hrest]
      simp [childContrib]

theorem walk_nofail_find (path : String) (l : List Entry) (du : DiskUsage) (k : String)
    (h : ∀ e ∈ l, statOkTop e = true) :
    (walk path l du).ext_usage.find k =
      du.ext_usage.find k + (l.map (childKey path k)).sum := by
  induction l generalizing du with
  | nil => simp [walk]
  | cons e rest ih =>
    have hrest : ∀ e ∈ rest, statOkTop e = true := fun x hx => h x (List.mem_cons_of_mem _ hx)
    match e with
    | .dir n r cs =>
      rw [show walk path (Entry.dir n r cs :: rest) du =
        walk path rest ⟨du.size + (get_disk_usage (childPath path n) (.dir n r cs)).size,
          du.ext_usage.merge (get_disk_usage (childPath path n) (.dir n r cs)).ext_usage,
          du.errors ++ (get_disk_usage (childPath path n) (.dir n r cs)).errors⟩ from rfl]
      rw [ih _ hrest]
      simp [childKey, ExtMap.merge_find]
      omega
    | .file n s true =>
      rw [show walk path (Entry.file n s true :: rest) du =
        walk path rest ⟨du.size + s, du.ext_usage.add (extOf n) s, du.errors⟩ from rfl]
      rw [ih _ hrest]
      simp [childKey, ExtMap.add_find]
      omega
    | .file n s false =>
      have := h (.file n s false) (List.mem_cons_self _ _)
      simp [statOkTop] at this
    | .other n =>
      rw [show walk path (Entry.other n :: rest) du = walk path rest du from rfl]
      rw [ih _ hrest]
      simp [childKey]

theorem walk_append (path : String) (l₁ l₂ : List Entry) (du : DiskUsage)
    (h : ∀ e ∈ l₁, statOkTop e = true) :
    walk path (l₁ ++ l₂) du = walk path l₂ (walk path l₁ du) := by
  induction l₁ generalizing du with
  | nil => simp [walk]
  | cons e rest ih =>
    have hrest : ∀ e ∈ rest, statOkTop e = true := fun x hx => h x (List.mem_cons_of_mem _ hx)
    match e with
    | .dir n r cs => exact ih _ hrest
    | .file n s true => exact ih _ hrest
    | .file n s false =>
      have := h (.file n s false) (List.mem_cons_self _ _)
      simp [statOkTop] at this
    | .other n => exact ih _ hrest

theorem walk_err_shift (path : String) (l : List Entry) :
    ∀ (s : Nat) (m : ExtMap) (e : List String),
    walk path l ⟨s, m, e⟩ =
      ⟨(walk path l ⟨s, m, []⟩).size, (walk path l ⟨s, m, []⟩).ext_usage,
        e ++ (walk path l ⟨s, m, []⟩).errors⟩ := by
  induction l with
  | nil => intro s m e; simp [walk]
  | cons x rest ih =>
    intro s m e
    match x with
    | .dir n r cs =>
      have h1 : ∀ (e₁ : List String), walk path (Entry.dir n r cs :: rest) ⟨s, m, e₁⟩ =
          walk path rest ⟨s + (get_disk_usage (childPath path n) (.dir n r cs)).size,
            m.merge (get_disk_usage (childPath path n) (.dir n r cs)).ext_usage,
            e₁ ++ (get_disk_usage (childPath path n) (.dir n r cs)).errors⟩ :=
        fun _ => rfl
      rw [h1, h1]
      simp only [List.nil_append]
      rw [ih _ _ ((get_disk_usage (childPath path n) (.dir n r cs)).errors)]
      rw [ih]
      simp [List.append_assoc]
    | .file n s₁ true =>
      have h1 : ∀ (e₁ : List String), walk path (Entry.file n s₁ true :: rest) ⟨s, m, e₁⟩ =
          walk path rest ⟨s + s₁, m.add (extOf n) s₁, e₁⟩ := fun _ => rfl
      rw [h1, h1, ih]
    | .file n s₁ false =>
      have h1 : ∀ (e₁ : List String), walk path (Entry.file n s₁ false :: rest) ⟨s, m, e₁⟩ =
          ⟨s, m, e₁ ++ [path]⟩ := fun _ => rfl
      rw [h1, h1]
      simp
    | .other n =>
      have h1 : ∀ (e₁ : List String), walk path (Entry.other n :: rest) ⟨s, m, e₁⟩ =
          walk path rest ⟨s, m, e₁⟩ := fun _ => rfl
      rw [h1, h1, ih]

theorem gdu_dir (p n : String) (cs : List Entry) :
    get_disk_usage p (.dir n true cs) = walk p cs ⟨0, [], []⟩ := rfl

/-- C1 (counterexample): in the tree `r` containing a regular file `bad`
whose metadata cannot be read followed by a readable 7-byte file `good`,
`get_disk_usage` computes total `0`, while the sum of the immediate
children's own contributions is `5 + 7 = 12`: the `catch` sits outside the
iteration loop, so the failing `file_size()` call aborts the remainder of
the level and `good` is never counted. -/
theorem spec_C1_cex :
    (get_disk_usage "r" (.dir "r" true
      [.file "bad" 5 false, .file "good" 7 true])).size = 0 ∧
    ([Entry.file "bad" 5 false, Entry.file "good" 7 true].map (childContrib "r")).sum = 12 ∧
    (0 : Nat) ≠ 12 := by
  refine ⟨rfl, rfl, by decide⟩

/-- C1 (amended): for a readable directory all of whose regular-file
children can be stat'ed, the computed total equals the sum over the
immediate children, a file contributing its own size and a subdirectory
its recursively computed total (an unreadable subdirectory contributes its
computed total `0`).  Without that proviso a stat failure aborts the rest
of the level. -/
theorem spec_C1 (p n : String) (cs : List Entry)
    (h : ∀ e ∈ cs, statOkTop e = true) :
    (get_disk_usage p (.dir n true cs)).size = (cs.map (childContrib p)).sum := by
  rw [gdu_dir, walk_nofail_size p cs _ h]
  simp

/-- C1 (witness): the amended claim evaluated on a concrete two-child tree. -/
theorem spec_C1_wit :
    (get_disk_usage "r" (.dir "r" true
      [.file "a.txt" 100 true, .dir "s" true [.file "b.log" 7 true]])).size =
      ([Entry.file "a.txt" 100 true,
        Entry.dir "s" true [Entry.file "b.log" 7 true]].map (childContrib "r")).sum :=
  spec_C1 "r" "r" _ (by decide)

theorem walk_skip_other (path nm : String) (xs ys : List Entry) :
    ∀ du, walk path (xs ++ Entry.other nm :: ys) du = walk path (xs ++ ys) du := by
  induction xs with
  | nil => intro du; rfl
  | cons x rest ih =>
    intro du
    match x with
    | .dir n r cs => exact ih _
    | .file n s true => exact ih _
    | .file n s false => rfl
    | .other n => exact ih _

/-- C10: an entry that is neither a directory nor a regular file falls
through both `if` branches of the aggregation loop: wherever it sits among
the children, the aggregate result (total, extension map and error
records) is exactly the one computed without it. -/
theorem spec_C10 (p n nm : String) (xs ys : List Entry) :
    get_disk_usage p (.dir n true (xs ++ .other nm :: ys)) =
      get_disk_usage p (.dir n true (xs ++ ys)) := by
  rw [gdu_dir, gdu_dir]
  exact walk_skip_other p nm xs ys _

/-- C9 (counterexample): swapping a stat-failing file past a subdirectory
changes the computed total (0 against 7): with a stat failure present the
result is not invariant under permutation of the children. -/
theorem spec_C9_cex :
    List.Perm [Entry.file "b" 5 false, Entry.dir "s" true [Entry.file "a.x" 7 true]]
      [Entry.dir "s" true [Entry.file "a.x" 7 true], Entry.file "b" 5 false] ∧
    (get_disk_usage "r" (.dir "r" true
      [.file "b" 5 false, .dir "s" true [.file "a.x" 7 true]])).size = 0 ∧
    (get_disk_usage "r" (.dir "r" true
      [.dir "s" true [.file "a.x" 7 true], .file "b" 5 false])).size = 7 ∧
    (0 : Nat) ≠ 7 :=
  ⟨List.Perm.swap _ _ _, rfl, rfl, by decide⟩

/-- C9 (amended): for children all of whose regular files can be stat'ed,
any permutation of the children yields the same total and the same
per-extension totals: the per-key-sum merge of subtree results is
commutative.  A stat-failing file breaks this by aborting the level. -/
theorem spec_C9 (p n : String) (cs cs₂ : List Entry) (hperm : cs.Perm cs₂)
    (h : ∀ e ∈ cs, statOkTop e = true) :
    (get_disk_usage p (.dir n true cs)).size =
      (get_disk_usage p (.dir n true cs₂)).size ∧
    ∀ k, (get_disk_usage p (.dir n true cs)).ext_usage.find k =
      (get_disk_usage p (.dir n true cs₂)).ext_usage.find k := by
  have h₂ : ∀ e ∈ cs₂, statOkTop e = true := fun e he => h e (hperm.mem_iff.mpr he)
  constructor
  · rw [gdu_dir, gdu_dir, walk_nofail_size p cs _ h, walk_nofail_size p cs₂ _ h₂]
    exact congrArg _ ((hperm.map (childContrib p)).sum_eq)
  · intro k
    rw [gdu_dir, gdu_dir, walk_nofail_find p cs _ k h, walk_nofail_find p cs₂ _ k h₂]
    exact congrArg _ ((hperm.map (childKey p k)).sum_eq)

/-- C9 (witness): the amended claim applied to a concrete swap of two
readable files. -/
theorem spec_C9_wit :
    (get_disk_usage "r" (.dir "r" true
      [.file "a.x" 3 true, .file "b.y" 4 true])).size =
      (get_disk_usage "r" (.dir "r" true
        [.file "b.y" 4 true, .file "a.x" 3 true])).size ∧
    (get_disk_usage "r" (.dir "r" true
      [.file "a.x" 3 true, .file "b.y" 4 true])).ext_usage.find ".x" =
      (get_disk_usage "r" (.dir "r" true
        [.file "b.y" 4 true, .file "a.x" 3 true])).ext_usage.find ".x" :=
  ⟨(spec_C9 "r" "r" _ _ (List.Perm.swap _ _ _) (by decide)).1,
   (spec_C9 "r" "r" _ _ (List.Perm.swap _ _ _) (by decide)).2 ".x"⟩

/-- C7 (counterexample): when a regular file's metadata cannot be read,
the exception lands in the `catch` placed outside the iteration loop: the
7-byte sibling after it is never visited (total 0, not 7), and the single
error names the directory being walked, not the offending entry.  So the
walk does not continue with the remaining entries at that level. -/
theorem spec_C7_cex :
    get_disk_usage "root" (.dir "root" true
      [.file "bad" 50 false, .file "good" 7 true]) = ⟨0, [], ["root"]⟩ ∧
    (0 : Nat) ≠ 7 :=
  ⟨rfl, by decide⟩

/-- C7 (amended): a directory that cannot be opened at all contributes
size 0 and no extensions, plus exactly one error record naming it, and the
totals of its siblings are unaffected (provided the preceding siblings'
regular files can be stat'ed).  A regular file that cannot be stat'ed, on
the other hand, records one error naming the directory being walked and
aborts the remaining entries of that level (though not the rest of the
aggregation). -/
theorem spec_C7 (p n m : String) (kids xs ys : List Entry)
    (hxs : ∀ e ∈ xs, statOkTop e = true) :
    ((get_disk_usage p (.dir n true (xs ++ .dir m false kids :: ys))).size =
      (get_disk_usage p (.dir n true (xs ++ ys))).size ∧
     (get_disk_usage p (.dir n true (xs ++ .dir m false kids :: ys))).ext_usage =
      (get_disk_usage p (.dir n true (xs ++ ys))).ext_usage ∧
     ∃ E₁ E₂, (get_disk_usage p (.dir n true (xs ++ ys))).errors = E₁ ++ E₂ ∧
      (get_disk_usage p (.dir n true (xs ++ .dir m false kids :: ys))).errors =
        E₁ ++ childPath p m :: E₂) ∧
    ∀ (f : String) (s : Nat) (rest : List Entry),
      get_disk_usage p (.dir n true (.file f s false :: rest)) = ⟨0, [], [p]⟩ := by
  rw [gdu_dir, gdu_dir, walk_append p xs _ _ hxs, walk_append p xs _ _ hxs]
  rcases hA : walk p xs ⟨0, [], []⟩ with ⟨As, Am, Ae⟩
  have hstep : walk p (Entry.dir m false kids :: ys) ⟨As, Am, Ae⟩ =
      walk p ys ⟨As, Am, Ae ++ [childPath p m]⟩ := rfl
  rw [hstep, walk_err_shift p ys As Am (Ae ++ [childPath p m]),
    walk_err_shift p ys As Am Ae]
  exact ⟨⟨rfl, rfl, Ae, (walk p ys ⟨As, Am, []⟩).errors, rfl, by simp⟩,
    fun f s rest => rfl⟩

/-- C7 (witness): the amended claim evaluated on a tree with one readable
file on each side of an unopenable subdirectory. -/
theorem spec_C7_wit :
    (get_disk_usage "r" (.dir "r" true
      [.file "a.t" 3 true, .dir "bad" false [.file "k.v" 9 true],
       .file "b.u" 4 true])).size =
      (get_disk_usage "r" (.dir "r" true
        [.file "a.t" 3 true, .file "b.u" 4 true])).size ∧
    (get_disk_usage "r" (.dir "r" true
      [.file "a.t" 3 true, .dir "bad" false [.file "k.v" 9 true],
       .file "b.u" 4 true])).ext_usage =
      (get_disk_usage "r" (.dir "r" true
        [.file "a.t" 3 true, .file "b.u" 4 true])).ext_usage :=
  ⟨(spec_C7 "r" "r" "bad" [.file "k.v" 9 true] [.file "a.t" 3 true]
      [.file "b.u" 4 true] (by decide)).1.1,
   (spec_C7 "r" "r" "bad" [.file "k.v" 9 true] [.file "a.t" 3 true]
      [.file "b.u" 4 true] (by decide)).1.2.1⟩

theorem strMk_data (l : List Char) : (String.mk l).data = l := rfl

theorem extTail_of_no_dot (cs : List Char) (h : '.' ∉ cs) : extTail cs = none := by
  induction cs with
  | nil => rfl
  | cons c rest ih =>
    have hr : '.' ∉ rest := fun hh => h (List.mem_cons_of_mem _ hh)
    have hc : ¬ c = '.' := fun hh => h (hh ▸ List.mem_cons_self c rest)
    simp [extTail, ih hr, hc]

theorem extTail_of_last_dot (a b : List Char) (h : '.' ∉ b) :
    extTail (a ++ '.' :: b) = some ('.' :: b) := by
  induction a with
  | nil => simp [extTail, extTail_of_no_dot b h]
  | cons c rest ih => simp [extTail, ih]

theorem extOf_of_no_dot (cs : List Char) (h : '.' ∉ cs) :
    extOf (String.mk cs) = "" := by
  have hg : ¬(String.mk cs = "." ∨ String.mk cs = "..") := by
    rintro (h1 | h1)
    · have h2 : cs = ['.'] := congrArg String.data h1
      exact h (h2 ▸ List.mem_cons_self '.' [])
    · have h2 : cs = ['.', '.'] := congrArg String.data h1
      exact h (h2 ▸ List.mem_cons_self '.' ['.'])
  cases cs with
  | nil => rfl
  | cons c rest =>
    have hr : '.' ∉ rest := fun hh => h (List.mem_cons_of_mem _ hh)
    have ht : (String.mk (c :: rest)).toList = c :: rest := rfl
    simp [extOf, hg, ht, extTail_of_no_dot rest hr]

theorem extOf_of_last_dot (a b : List Char) (ha : a ≠ []) (hb : '.' ∉ b)
    (hne : a ++ '.' :: b ≠ ['.', '.']) :
    extOf (String.mk (a ++ '.' :: b)) = String.mk ('.' :: b) := by
  obtain ⟨c, a₁, rfl⟩ : ∃ c a₁, a = c :: a₁ := by
    cases a with
    | nil => exact absurd rfl ha
    | cons c a₁ => exact ⟨c, a₁, rfl⟩
  have hg : ¬(String.mk (c :: (a₁ ++ '.' :: b)) = "." ∨
      String.mk (c :: (a₁ ++ '.' :: b)) = "..") := by
    rintro (h1 | h1)
    · have h2 : c :: (a₁ ++ '.' :: b) = ['.'] := congrArg String.data h1
      have h3 : (c :: (a₁ ++ '.' :: b)).length = 1 := by rw [h2]; rfl
      simp at h3
    · have h2 : c :: (a₁ ++ '.' :: b) = ['.', '.'] := congrArg String.data h1
      exact hne (by simpa using h2)
  have ht : (String.mk ((c :: a₁) ++ '.' :: b)).toList = c :: (a₁ ++ '.' :: b) := rfl
  simp [extOf, hg, ht, extTail_of_last_dot a₁ b hb]

theorem extOf_of_leading_dot (b : List Char) (hb : '.' ∉ b) :
    extOf (String.mk ('.' :: b)) = "" := by
  by_cases hg : String.mk ('.' :: b) = "." ∨ String.mk ('.' :: b) = ".."
  · simp [extOf, hg]
  · have ht : (String.mk ('.' :: b)).toList = '.' :: b := rfl
    simp [extOf, hg, ht, extTail_of_no_dot b hb]

/-- C4 (counterexample): the file ".bashrc" is grouped under the empty
extension key, because `path::extension()` never treats a dot in the first
position of the filename as starting an extension; the claim's "the key is
that whole filename" is false. -/
theorem spec_C4_cex :
    (get_disk_usage "r" (.dir "r" true
      [.file ".bashrc" 42 true])).ext_usage = [("", 42)] ∧
    ("" : String) ≠ ".bashrc" := by
  refine ⟨rfl, by decide⟩

/-- C4 (amended): the grouping key recorded for a regular file is
`extOf name`, which is: the empty string when the name has no dot and also
when its only dot is the leading character (a dotfile has no extension);
otherwise the substring from the last dot to the end, taken verbatim (no
case normalization). -/
theorem spec_C4 :
    (∀ (p d n : String) (s : Nat),
      get_disk_usage p (.dir d true [.file n s true]) = ⟨s, [(extOf n, s)], []⟩) ∧
    (∀ (cs : List Char), '.' ∉ cs → extOf (String.mk cs) = "") ∧
    (∀ (b : List Char), '.' ∉ b → extOf (String.mk ('.' :: b)) = "") ∧
    (∀ (a b : List Char), a ≠ [] → '.' ∉ b → a ++ '.' :: b ≠ ['.', '.'] →
      extOf (String.mk (a ++ '.' :: b)) = String.mk ('.' :: b)) := by
  refine ⟨fun p d n s => ?_, extOf_of_no_dot, extOf_of_leading_dot, extOf_of_last_dot⟩
  rw [gdu_dir]
  show walk p [Entry.file n s true] ⟨0, [], []⟩ = ⟨s, [(extOf n, s)], []⟩
  simp [walk, ExtMap.add]

/-- C4 (witness): the four parts of the amended claim evaluated at
concrete filenames ("ab" without a dot, ".b" a dotfile, "a.gz" a regular
extension, and a one-file directory). -/
theorem spec_C4_wit :
    get_disk_usage "r" (.dir "r" true [.file "a.txt" 5 true]) =
      ⟨5, [(extOf "a.txt", 5)], []⟩ ∧
    extOf (String.mk ['a', 'b']) = "" ∧
    extOf (String.mk ('.' :: ['b'])) = "" ∧
    extOf (String.mk (['a'] ++ '.' :: ['g', 'z'])) = String.mk ('.' :: ['g', 'z']) :=
  ⟨spec_C4.1 "r" "r" "a.txt" 5, spec_C4.2.1 _ (by decide),
   spec_C4.2.2.1 _ (by decide), spec_C4.2.2.2 _ _ (by decide) (by decide) (by decide)⟩

mutual

/-- diskstat `get_disk_usage(path, ext_usage, error_logs)` (the async
variant rendered sequentially: subdirectory futures are evaluated at
launch order; the aggregate content is completion-order independent, which
is claim C9).  Returns the total together with the updated shared map and
error log. -/
def gdu2 (path : String) (m : ExtMap) (errs : List String) :
    Entry → Nat × ExtMap × List String
  | .dir _ true cs => walk2 path cs 0 0 m errs
  | _ => (0, m, errs ++ [path])

/-- diskstat's iteration loop.  `ft` is `total_size` as accumulated from
files inside the loop; `fs` is the sum the `f.get()` loop adds from the
subdirectory futures.  A stat-failing file jumps to the `catch`, which
records the error and returns `total_size` only: the futures' totals
(`fs`) are dropped, though their updates to the shared map remain. -/
def walk2 (path : String) :
    List Entry → Nat → Nat → ExtMap → List String → Nat × ExtMap × List String
  | [], ft, fs, m, errs => (ft + fs, m, errs)
  | .dir n r cs :: rest, ft, fs, m, errs =>
    let sub := gdu2 (childPath path n) m errs (.dir n r cs)
    walk2 path rest ft (fs + sub.1) sub.2.1 sub.2.2
  | .file n s true :: rest, ft, fs, m, errs =>
    walk2 path rest (ft + s) fs (m.add (extOf n) s) errs
  | .file _ _ false :: _, ft, _, m, errs => (ft, m, errs ++ [path])
  | .other _ :: rest, ft, fs, m, errs => walk2 path rest ft fs m errs
end

mutual

/-- diskstat `print_tree_view`, restricted to the evolution of the shared
`ext_usage` map and error log (the rendered text is irrelevant here): it
calls `get_disk_usage` again on its node — into the same shared map — and
then recurses into each subdirectory. -/
def ptv2 (path : String) (m : ExtMap) (errs : List String) :
    Entry → ExtMap × List String
  | .dir n true cs =>
    let g := gdu2 path m errs (.dir n true cs)
    ptvKids path cs g.2.1 g.2.2
  | .dir n false cs =>
    let g := gdu2 path m errs (.dir n false cs)
    (g.2.1, g.2.2 ++ [path])
  | .file n s ok =>
    let g := gdu2 path m errs (.file n s ok)
    (g.2.1, g.2.2 ++ [path])
  | .other n =>
    let g := gdu2 path m errs (.other n)
    (g.2.1, g.2.2 ++ [path])

/-- `print_tree_view`'s loop over the gathered entries: subdirectories
recurse, files only have `fs::file_size` re-taken (no map update; a
failure records the entry's path), anything else makes `fs::file_size`
throw. -/
def ptvKids (path : String) :
    List Entry → ExtMap → List String → ExtMap × List String
  | [], m, errs => (m, errs)
  | .dir n r cs :: rest, m, errs =>
    let g := ptv2 (childPath path n) m errs (.dir n r cs)
    ptvKids path rest g.1 g.2
  | .file _ _ true :: rest, m, errs => ptvKids path rest m errs
  | .file n _ false :: rest, m, errs =>
    ptvKids path rest m (errs ++ [childPath path n])
  | .other n :: rest, m, errs => ptvKids path rest m (errs ++ [childPath path n])
end

/-- diskstat `main`'s report pipeline: one `get_disk_usage` for the total,
then `print_tree_view` (which re-aggregates into the same shared map),
then the extension report is printed from that map.  Returns the reported
total and the map handed to `print_sorted_extensions`. -/
def diskstatReport (path : String) (root : Entry) : Nat × ExtMap :=
  let g := gdu2 path [] [] root
  let t := ptv2 path g.2.1 g.2.2 root
  (g.1, t.1)

mutual

/-- No access error anywhere in this entry's subtree: regular files can be
stat'ed and directories can be opened. -/
def entryOk : Entry → Bool
  | .file _ _ ok => ok
  | .dir _ r cs => r && entriesOk cs
  | .other _ => true

def entriesOk : List Entry → Bool
  | [] => true
  | e :: t => entryOk e && entriesOk t
end

theorem ExtMap.total_nil : ExtMap.total ([] : ExtMap) = 0 := rfl

theorem walk_ok_aux (path : String) (l : List Entry) (du : DiskUsage) :
    entriesOk l = true →
    ((walk path l du).ext_usage.total + du.size =
      (walk path l du).size + du.ext_usage.total ∧
     (walk path l du).errors = du.errors) := by
  refine walk.induct
    (fun p e => ∀ n₁ cs₁, e = Entry.dir n₁ true cs₁ → entriesOk cs₁ = true →
      (get_disk_usage p e).ext_usage.total = (get_disk_usage p e).size ∧
      (get_disk_usage p e).errors = [])
    (fun p l du => entriesOk l = true →
      (walk p l du).ext_usage.total + du.size =
        (walk p l du).size + du.ext_usage.total ∧
      (walk p l du).errors = du.errors)
    ?_ ?_ ?_ ?_ ?_ ?_ ?_ path l du
  · intro p name cs h2 n₁ cs₁ heq hok
    injection heq with h₁ h₂ h₃
    subst h₃
    rw [gdu_dir]
    obtain ⟨h4a, h4b⟩ := h2 hok
    dsimp only at h4a h4b
    rw [ExtMap.total_nil] at h4a
    exact ⟨by omega, h4b⟩
  · intro t p hne n₁ cs₁ heq
    exact (hne n₁ cs₁ heq).elim
  · intro p du _
    exact ⟨Nat.add_comm _ _, rfl⟩
  · intro p n r cs rest du sub ih1 ih2 hok
    simp only [entriesOk, entryOk, Bool.and_eq_true] at hok
    obtain ⟨⟨hr, hcs⟩, hrest⟩ := hok
    subst hr
    have hsub : sub.ext_usage.total = sub.size ∧ sub.errors = [] := ih1 n cs rfl hcs
    have hstep : walk p (Entry.dir n true cs :: rest) du =
        walk p rest ⟨du.size + sub.size, du.ext_usage.merge sub.ext_usage,
          du.errors ++ sub.errors⟩ := rfl
    rw [hstep]
    obtain ⟨h5, h6⟩ := ih2 hrest
    dsimp only at h5 h6
    have hm := ExtMap.merge_total du.ext_usage sub.ext_usage
    refine ⟨by omega, ?_⟩
    rw [h6, hsub.2]
    simp
  · intro p n s rest du ih hok
    simp only [entriesOk, entryOk, Bool.and_eq_true] at hok
    have hstep : walk p (Entry.file n s true :: rest) du =
        walk p rest ⟨du.size + s, du.ext_usage.add (extOf n) s, du.errors⟩ := rfl
    rw [hstep]
    obtain ⟨h5, h6⟩ := ih hok.2
    dsimp only at h5 h6
    have ha := ExtMap.add_total du.ext_usage (extOf n) s
    exact ⟨by omega, h6⟩
  · intro p name s tail du hok
    simp [entriesOk, entryOk] at hok
  · intro p name rest du ih hok
    simp only [entriesOk, entryOk, Bool.and_eq_true, true_and] at hok
    exact ih hok

/-- C2: first, the intended relation does hold for a single aggregation
pass over an error-free tree (dirchk's report): the values of the
extension map sum to the total.  Second, the mapping that diskstat's
`main` actually reports is the shared map after `print_tree_view` has
re-run `get_disk_usage` on it at every directory node: already for a root
holding one 100-byte file `a.txt` and no access errors, the reported map
says 200 bytes for ".txt" while the reported total is 100, so the claimed
equation fails for the reported mapping. -/
theorem spec_C2 :
    (∀ (path n : String) (cs : List Entry), entriesOk cs = true →
      (get_disk_usage path (.dir n true cs)).ext_usage.total =
        (get_disk_usage path (.dir n true cs)).size) ∧
    diskstatReport "r" (.dir "r" true [.file "a.txt" 100 true]) =
      (100, [(".txt", 200)]) ∧
    ExtMap.total [(".txt", 200)] = 200 ∧ ¬ (200 : Nat) = 100 := by
  refine ⟨fun path n cs h => ?_, rfl, rfl, by decide⟩
  rw [gdu_dir]
  obtain ⟨h1, _⟩ := walk_ok_aux path cs ⟨0, [], []⟩ h
  dsimp only at h1
  rw [ExtMap.total_nil] at h1
  omega

/-- C2 (witness): the no-access-error half of the theorem evaluated on a
concrete two-level tree. -/
theorem spec_C2_wit :
    (get_disk_usage "r" (.dir "r" true
      [.file "a.txt" 100 true, .dir "s" true [.file "b.log" 924 true]])).ext_usage.total =
      (get_disk_usage "r" (.dir "r" true
        [.file "a.txt" 100 true, .dir "s" true [.file "b.log" 924 true]])).size :=
  spec_C2.1 "r" "r" _ (by decide)

/-- `std::fixed << setprecision(2)` rendering step: round a nonnegative
value, already multiplied by 100, to the nearest integer with ties to
even (the rounding a correctly-rounded printf applies to the exact binary
value). -/
def round2 (q : ℚ) : Nat :=
  if q - ⌊q⌋ < 1 / 2 then ⌊q⌋.toNat
  else if 1 / 2 < q - ⌊q⌋ then ⌊q⌋.toNat + 1
  else if ⌊q⌋.toNat % 2 = 0 then ⌊q⌋.toNat else ⌊q⌋.toNat + 1

/-- Two-digit zero-padded rendering of a value in `[0, 100)`. -/
def pad2 (n : Nat) : String := if n < 10 then "0" ++ toString n else toString n

/-- `out << fixed << setprecision(2) << q`: exactly two decimal digits. -/
def showFixed2 (q : ℚ) : String :=
  toString (round2 (q * 100) / 100) ++ "." ++ pad2 (round2 (q * 100) % 100)

/-- `{"B", "KB", "MB", "GB", "TB", "PB"}`. -/
def sizeUnits : List String := ["B", "KB", "MB", "GB", "TB", "PB"]

/-- The loop `while (converted_size >= 1024 && unit_index < 5)`, with the
remaining iteration budget `5 - unit_index` carried as fuel (both sources
bound the index by the last unit).  The value is kept in ℚ: a double
divided by the power of two 1024 is exact, so the C++ value evolution
coincides with the rational one whenever the initial
`static_cast<double>(size)` is exact (in particular for every input below
2^53 and for all the powers of two used in the spec's test points). -/
def scaleLoop : Nat → Nat → ℚ → Nat × ℚ
  | 0, idx, v => (idx, v)
  | f + 1, idx, v => if 1024 ≤ v then scaleLoop f (idx + 1) (v / 1024) else (idx, v)

/-- `format_size` of dirchk/diskstat. -/
def format_size (size : Nat) : String :=
  showFixed2 (scaleLoop 5 0 (size : ℚ)).2 ++ " " ++
    sizeUnits.getD (scaleLoop 5 0 (size : ℚ)).1 ""

theorem scaleLoop_spec (f : Nat) : ∀ (idx : Nat) (size : Nat),
    ∃ j, j ≤ f ∧
      scaleLoop f idx ((size : ℚ) / 1024 ^ idx) =
        (idx + j, (size : ℚ) / 1024 ^ (idx + j)) ∧
      (j = f ∨ size < 1024 ^ (idx + j + 1)) ∧
      (j = 0 ∨ 1024 ^ (idx + j) ≤ size) := by
  induction f with
  | zero =>
    intro idx size
    exact ⟨0, le_refl 0, by simp [scaleLoop], Or.inl rfl, Or.inl rfl⟩
  | succ f ih =>
    intro idx size
    have hpos : (0 : ℚ) < 1024 ^ idx := by positivity
    by_cases h : (1024 : ℚ) ≤ (size : ℚ) / 1024 ^ idx
    · have h1 : (1024 : ℚ) * 1024 ^ idx ≤ (size : ℚ) := (le_div_iff₀ hpos).mp h
      have hsize : 1024 ^ (idx + 1) ≤ size := by
        have h2 : ((1024 ^ (idx + 1) : ℕ) : ℚ) ≤ (size : ℚ) := by
          push_cast
          rw [pow_succ, mul_comm]
          exact h1
        exact_mod_cast h2
      have hdiv : ((size : ℚ) / 1024 ^ idx) / 1024 = (size : ℚ) / 1024 ^ (idx + 1) := by
        rw [div_div, pow_succ]
      have hs : scaleLoop (f + 1) idx ((size : ℚ) / 1024 ^ idx) =
          scaleLoop f (idx + 1) ((size : ℚ) / 1024 ^ (idx + 1)) := by
        simp [scaleLoop, h, hdiv]
      obtain ⟨j, hj, heq, hup, hlo⟩ := ih (idx + 1) size
      refine ⟨j + 1, by omega, ?_, ?_, ?_⟩
      · rw [hs, heq]
        have he : idx + 1 + j = idx + (j + 1) := by omega
        rw [he]
      · rcases hup with h3 | h3
        · exact Or.inl (by omega)
        · refine Or.inr ?_
          have he : idx + 1 + j + 1 = idx + (j + 1) + 1 := by omega
          rw [← he]
          exact h3
      · refine Or.inr ?_
        rcases hlo with h3 | h3
        · subst h3
          simpa using hsize
        · have he : idx + 1 + j = idx + (j + 1) := by omega
          rw [← he]
          exact h3
    · have h2 : (size : ℚ) / 1024 ^ idx < 1024 := not_le.mp h
      have h3 : (size : ℚ) < 1024 * 1024 ^ idx := (div_lt_iff₀ hpos).mp h2
      have hsize : size < 1024 ^ (idx + 1) := by
        have h4 : (size : ℚ) < ((1024 ^ (idx + 1) : ℕ) : ℚ) := by
          push_cast
          rw [pow_succ, mul_comm]
          exact h3
        exact_mod_cast h4
      exact ⟨0, Nat.zero_le _, by simp [scaleLoop, h], Or.inr (by simpa using hsize),
        Or.inl rfl⟩

/-- C3: the formatter scales the value by factors of 1024 exactly while it
is at least 1024 and the unit index is below PB (so the emitted value is
`size / 1024 ^ k` with `k` maximal below 6 unless the value never reached
1024), prints it with exactly two decimals, one space and the unit; and
the five pinned evaluations hold, including `1024^6 ↦ "1024.00 PB"`
because no unit beyond PB exists. -/
theorem spec_C3 :
    (∀ size : Nat, ∃ k, k ≤ 5 ∧
      format_size size = showFixed2 ((size : ℚ) / 1024 ^ k) ++ " " ++
        sizeUnits.getD k "" ∧
      (k = 5 ∨ size < 1024 ^ (k + 1)) ∧ (k = 0 ∨ 1024 ^ k ≤ size)) ∧
    format_size 0 = "0.00 B" ∧ format_size 1023 = "1023.00 B" ∧
    format_size 1024 = "1.00 KB" ∧ format_size (1024 ^ 5) = "1.00 PB" ∧
    format_size (1024 ^ 6) = "1024.00 PB" := by
  refine ⟨fun size => ?_,
    by norm_num [format_size, scaleLoop, showFixed2, round2, pad2, sizeUnits]; decide,
    by norm_num [format_size, scaleLoop, showFixed2, round2, pad2, sizeUnits]; decide,
    by norm_num [format_size, scaleLoop, showFixed2, round2, pad2, sizeUnits]; decide,
    by norm_num [format_size, scaleLoop, showFixed2, round2, pad2, sizeUnits]; decide,
    by norm_num [format_size, scaleLoop, showFixed2, round2, pad2, sizeUnits]; decide⟩
  obtain ⟨j, hj, heq, hup, hlo⟩ := scaleLoop_spec 5 0 size
  have h0 : ((size : ℚ) / 1024 ^ (0 : ℕ)) = (size : ℚ) := by simp
  have heq2 : scaleLoop 5 0 (size : ℚ) = (j, (size : ℚ) / 1024 ^ j) := by
    rw [← h0, heq]
    simp
  refine ⟨j, hj, ?_, by simpa using hup, by simpa using hlo⟩
  rw [format_size, heq2]

/-- The percentage dirchk computes for a node:
`total_size ? (static_cast<double>(du.size) / total_size * 100) : 0`
(diskstat computes `dir_size * 100.0 / total_size` under the same guard;
both are the same rational).  Over ℚ the guarded branch is exact. -/
def pctOf (total s : Nat) : ℚ := if total = 0 then 0 else (s : ℚ) / (total : ℚ) * 100

/-- Modelled from the spec's words, for comparison with `pctOf`:
"percentage = 100 * nodeSize / totalBytes ... if totalBytes == 0,
percentage is reported as 0.00". -/
def pctSpec (total s : Nat) : ℚ := if total = 0 then 0 else 100 * (s : ℚ) / (total : ℚ)

/-- One line of dirchk's tree view:
`<indent><name>/ - <formatted size> (<percentage>%)`. -/
def treeLine (depth : Nat) (name : String) (s : Nat) (total : Nat) : String :=
  (String.replicate (depth * 2) ' ' ++ name ++ "/ - " ++ format_size s ++ " ") ++
    ("(" ++ showFixed2 (pctOf total s) ++ "%)")

mutual

/-- dirchk `print_tree_view(path, depth, total_size)`: re-runs
`get_disk_usage` on its node, prints the node line, and recurses into each
subdirectory entry.  The returned list is the sequence of stdout lines (a
directory that cannot be iterated still prints its own line, sized 0; the
`cerr` diagnostic is not part of the stdout stream). -/
def print_tree_view (path name : String) (depth total : Nat) : Entry → List String
  | .dir n true cs =>
    treeLine depth name (get_disk_usage path (.dir n true cs)).size total ::
      ptvChildren path depth total cs
  | .dir n false cs =>
    [treeLine depth name (get_disk_usage path (.dir n false cs)).size total]
  | .file n s ok => [treeLine depth name (get_disk_usage path (.file n s ok)).size total]
  | .other n => [treeLine depth name (get_disk_usage path (.other n)).size total]

/-- The loop over directory entries: only subdirectories are recursed into. -/
def ptvChildren (path : String) (depth total : Nat) : List Entry → List String
  | [] => []
  | .dir n r cs :: rest =>
    print_tree_view (childPath path n) n (depth + 1) total (.dir n r cs) ++
      ptvChildren path depth total rest
  | .file _ _ _ :: rest => ptvChildren path depth total rest
  | .other _ :: rest => ptvChildren path depth total rest
end

theorem showFixed2_zero : showFixed2 (0 : ℚ) = "0.00" := by
  norm_num [showFixed2, round2, pad2]
  decide

theorem showFixed2_hundred : showFixed2 (100 : ℚ) = "100.00" := by
  norm_num [showFixed2, round2, pad2]
  decide

theorem treeLine_zero_total (depth : Nat) (name : String) (s : Nat) :
    treeLine depth name s 0 =
      (String.replicate (depth * 2) ' ' ++ name ++ "/ - " ++ format_size s ++ " ") ++
        "(0.00%)" := by
  rw [treeLine]
  have hp : pctOf 0 s = 0 := by simp [pctOf]
  rw [hp, showFixed2_zero]
  rfl

theorem ptv_zero_aux (path name : String) (depth : Nat) (e : Entry) :
    ∀ l ∈ print_tree_view path name depth 0 e, ∃ s, l = s ++ "(0.00%)" := by
  refine print_tree_view.induct
    (fun path name depth total e => total = 0 →
      ∀ l ∈ print_tree_view path name depth total e, ∃ s, l = s ++ "(0.00%)")
    (fun path depth total cs => total = 0 →
      ∀ l ∈ ptvChildren path depth total cs, ∃ s, l = s ++ "(0.00%)")
    ?_ ?_ ?_ ?_ ?_ ?_ ?_ ?_ path name depth 0 e rfl
  · intro path name depth total n cs ih ht l hl
    subst ht
    rw [show print_tree_view path name depth 0 (Entry.dir n true cs) =
      treeLine depth name (get_disk_usage path (.dir n true cs)).size 0 ::
        ptvChildren path depth 0 cs from rfl] at hl
    rcases List.mem_cons.mp hl with h1 | h1
    · exact ⟨_, h1.trans (treeLine_zero_total _ _ _)⟩
    · exact ih rfl l h1
  · intro path name depth total n cs ht l hl
    subst ht
    rw [show print_tree_view path name depth 0 (Entry.dir n false cs) =
      [treeLine depth name (get_disk_usage path (.dir n false cs)).size 0] from rfl] at hl
    rcases List.mem_singleton.mp hl with h1
    exact ⟨_, h1 ▸ treeLine_zero_total _ _ _⟩
  · intro path name depth total n s ok ht l hl
    subst ht
    rw [show print_tree_view path name depth 0 (Entry.file n s ok) =
      [treeLine depth name (get_disk_usage path (.file n s ok)).size 0] from rfl] at hl
    rcases List.mem_singleton.mp hl with h1
    exact ⟨_, h1 ▸ treeLine_zero_total _ _ _⟩
  · intro path name depth total n ht l hl
    subst ht
    rw [show print_tree_view path name depth 0 (Entry.other n) =
      [treeLine depth name (get_disk_usage path (.other n)).size 0] from rfl] at hl
    rcases List.mem_singleton.mp hl with h1
    exact ⟨_, h1 ▸ treeLine_zero_total _ _ _⟩
  · intro path depth total ht l hl
    rw [show ptvChildren path depth total [] = [] from rfl] at hl
    exact absurd hl (List.not_mem_nil l)
  · intro path depth total n r cs rest ih1 ih2 ht l hl
    subst ht
    rw [show ptvChildren path depth 0 (Entry.dir n r cs :: rest) =
      print_tree_view (childPath path n) n (depth + 1) 0 (.dir n r cs) ++
        ptvChildren path depth 0 rest from rfl] at hl
    rcases List.mem_append.mp hl with h1 | h1
    · exact ih1 rfl l h1
    · exact ih2 rfl l h1
  · intro path depth total n s ok rest ih ht l hl
    subst ht
    exact ih rfl l hl
  · intro path depth total n rest ih ht l hl
    subst ht
    exact ih rfl l hl

/-- C6: the percentage computed for each printed node is exactly the
spec's `100 * nodeSize / totalBytes` guarded by `totalBytes = 0` (first
conjunct, `pctOf` against the spec-side `pctSpec`); with the total taken
from the aggregation of the same root — which `print_tree_view`
deterministically recomputes — the root line carries `(100.00%)` whenever
the total is positive (second conjunct); and when the total is `0` every
printed line ends in `(0.00%)`, the guard having avoided any division
(third conjunct). -/
theorem spec_C6 :
    (∀ total s, pctOf total s = pctSpec total s) ∧
    (∀ (path name : String) (e : Entry), 0 < (get_disk_usage path e).size →
      (print_tree_view path name 0 (get_disk_usage path e).size e).head? =
        some ((String.replicate 0 ' ' ++ name ++ "/ - " ++
          format_size (get_disk_usage path e).size ++ " ") ++ "(100.00%)")) ∧
    (∀ (path name : String) (depth : Nat) (e : Entry) (l : String),
      l ∈ print_tree_view path name depth 0 e → ∃ s, l = s ++ "(0.00%)") := by
  refine ⟨fun t s => ?_, fun path name e h => ?_, fun path name depth e l hl =>
    ptv_zero_aux path name depth e l hl⟩
  · by_cases ht : t = 0
    · simp [pctOf, pctSpec, ht]
    · simp only [pctOf, pctSpec, ht, if_false]
      ring
  · match e with
    | .dir n true cs =>
      have hne : (get_disk_usage path (Entry.dir n true cs)).size ≠ 0 := by omega
      have hpct : pctOf (get_disk_usage path (Entry.dir n true cs)).size
          (get_disk_usage path (Entry.dir n true cs)).size = 100 := by
        have hc : ((get_disk_usage path (Entry.dir n true cs)).size : ℚ) ≠ 0 :=
          Nat.cast_ne_zero.mpr hne
        simp [pctOf, hne, div_self hc]
      rw [show print_tree_view path name 0
          (get_disk_usage path (Entry.dir n true cs)).size (.dir n true cs) =
        treeLine 0 name (get_disk_usage path (.dir n true cs)).size
            (get_disk_usage path (.dir n true cs)).size ::
          ptvChildren path 0 (get_disk_usage path (.dir n true cs)).size cs from rfl]
      rw [show (treeLine 0 name (get_disk_usage path (.dir n true cs)).size
            (get_disk_usage path (.dir n true cs)).size ::
          ptvChildren path 0 (get_disk_usage path (.dir n true cs)).size cs).head? =
        some (treeLine 0 name (get_disk_usage path (.dir n true cs)).size
          (get_disk_usage path (.dir n true cs)).size) from rfl]
      rw [treeLine, hpct, showFixed2_hundred]
      rfl
    | .dir n false cs =>
      have h0 : (get_disk_usage path (Entry.dir n false cs)).size = 0 := rfl
      omega
    | .file n s ok =>
      have h0 : (get_disk_usage path (Entry.file n s ok)).size = 0 := rfl
      omega
    | .other n =>
      have h0 : (get_disk_usage path (Entry.other n)).size = 0 := rfl
      omega

/-- C6 (witness): the three conjuncts applied at concrete inputs: the
formula at `total = s = 7`, the root line of a one-file tree of size 7,
and a zero-total line. -/
theorem spec_C6_wit :
    pctOf 7 7 = pctSpec 7 7 ∧
    (print_tree_view "r" "r" 0
        (get_disk_usage "r" (.dir "r" true [.file "a.t" 7 true])).size
        (.dir "r" true [.file "a.t" 7 true])).head? =
      some ((String.replicate 0 ' ' ++ "r" ++ "/ - " ++
        format_size (get_disk_usage "r" (.dir "r" true [.file "a.t" 7 true])).size ++
          " ") ++ "(100.00%)") ∧
    (∃ s, treeLine 0 "r" 0 0 = s ++ "(0.00%)") :=
  ⟨spec_C6.1 7 7,
   spec_C6.2.1 "r" "r" (.dir "r" true [.file "a.t" 7 true]) (by decide),
   spec_C6.2.2 "r" "r" 0 (.dir "r" true []) (treeLine 0 "r" 0 0)
     (List.mem_singleton.mpr rfl)⟩

/-- Insertion into dirchk's `std::map<uintmax_t, std::string,
std::greater<>> sorted_ext`: the list is kept sorted by strictly
decreasing key, and — as with `std::map::insert` — an insertion with an
already-present key does nothing. -/
def insertGreater (l : List (Nat × String)) (k : Nat) (v : String) :
    List (Nat × String) :=
  match l with
  | [] => [(k, v)]
  | (k₁, v₁) :: t =>
    if k₁ < k then (k, v) :: (k₁, v₁) :: t
    else if k₁ = k then (k₁, v₁) :: t
    else (k₁, v₁) :: insertGreater t k v

/-- The loop `for ([ext, size] : ext_usage) sorted_ext.insert({size, ext})`. -/
def sorted_ext (m : ExtMap) : List (Nat × String) :=
  m.foldl (fun acc p => insertGreater acc p.2 p.1) []

/-- dirchk `print_sorted_extensions`: the `<ext>: <formatted size>` lines,
one per entry surviving in `sorted_ext`. -/
def print_sorted_extensions (m : ExtMap) : List String :=
  (sorted_ext m).map (fun q => q.2 ++ ": " ++ format_size q.1)

theorem insertGreater_fst_mem (l : List (Nat × String)) (k : Nat) (v : String) :
    ∀ q ∈ insertGreater l k v, q.1 = k ∨ q.1 ∈ l.map Prod.fst := by
  induction l with
  | nil => intro q hq; rw [List.mem_singleton.mp hq]; exact Or.inl rfl
  | cons p t ih =>
    obtain ⟨k₁, v₁⟩ := p
    intro q hq
    by_cases h1 : k₁ < k
    · simp only [insertGreater, if_pos h1] at hq
      rcases List.mem_cons.mp hq with h2 | h2
      · exact Or.inl (by rw [h2])
      · exact Or.inr (List.mem_map_of_mem Prod.fst h2)
    · by_cases h2 : k₁ = k
      · simp only [insertGreater, if_neg h1, if_pos h2] at hq
        exact Or.inr (List.mem_map_of_mem Prod.fst hq)
      · simp only [insertGreater, if_neg h1, if_neg h2] at hq
        rcases List.mem_cons.mp hq with h3 | h3
        · refine Or.inr ?_
          rw [h3]
          exact List.mem_map_of_mem Prod.fst (List.mem_cons_self _ _)
        · rcases ih q h3 with h4 | h4
          · exact Or.inl h4
          · refine Or.inr ?_
            rcases List.mem_map.mp h4 with ⟨r, hr, hr2⟩
            exact List.mem_map.mpr ⟨r, List.mem_cons_of_mem _ hr, hr2⟩

theorem insertGreater_sorted (l : List (Nat × String)) (k : Nat) (v : String)
    (h : l.Pairwise (fun a b => b.1 < a.1)) :
    (insertGreater l k v).Pairwise (fun a b => b.1 < a.1) := by
  induction l with
  | nil => simp [insertGreater]
  | cons p t ih =>
    obtain ⟨k₁, v₁⟩ := p
    obtain ⟨hhead, htail⟩ := List.pairwise_cons.mp h
    by_cases h1 : k₁ < k
    · simp only [insertGreater, if_pos h1]
      refine List.pairwise_cons.mpr ⟨?_, h⟩
      intro b hb
      rcases List.mem_cons.mp hb with h2 | h2
      · rw [h2]; exact h1
      · exact lt_trans (hhead b h2) h1
    · by_cases h2 : k₁ = k
      · simp only [insertGreater, if_neg h1, if_pos h2]
        exact h
      · simp only [insertGreater, if_neg h1, if_neg h2]
        refine List.pairwise_cons.mpr ⟨?_, ih htail⟩
        intro b hb
        rcases insertGreater_fst_mem t k v b hb with h3 | h3
        · rw [h3]; omega
        · rcases List.mem_map.mp h3 with ⟨r, hr, hr2⟩
          rw [← hr2]
          exact hhead r hr

theorem insertGreater_perm (l : List (Nat × String)) (k : Nat) (v : String)
    (hk : k ∉ l.map Prod.fst) :
    (insertGreater l k v).Perm ((k, v) :: l) := by
  induction l with
  | nil => exact List.Perm.refl _
  | cons p t ih =>
    obtain ⟨k₁, v₁⟩ := p
    have hk1 : ¬ k = k₁ := by
      intro h
      exact hk (by simp [h])
    have hkt : k ∉ t.map Prod.fst := by
      intro h
      exact hk (by simp [h])
    by_cases h1 : k₁ < k
    · simp only [insertGreater, if_pos h1]
      exact List.Perm.refl _
    · by_cases h2 : k₁ = k
      · exact absurd h2.symm hk1
      · simp only [insertGreater, if_neg h1, if_neg h2]
        exact (List.Perm.cons _ (ih hkt)).trans (List.Perm.swap _ _ _)

theorem sorted_ext_aux (m : ExtMap) :
    ∀ (acc : List (Nat × String)),
    (m.map Prod.snd).Pairwise (fun a b => ¬ a = b) →
    (∀ p ∈ m, p.2 ∉ acc.map Prod.fst) →
    acc.Pairwise (fun a b => b.1 < a.1) →
    ((m.foldl (fun acc p => insertGreater acc p.2 p.1) acc).Pairwise
        (fun a b => b.1 < a.1) ∧
      (m.foldl (fun acc p => insertGreater acc p.2 p.1) acc).Perm
        ((m.map (fun p => (p.2, p.1))) ++ acc)) := by
  induction m with
  | nil =>
    intro acc _ _ hacc
    exact ⟨hacc, by simp⟩
  | cons p t ih =>
    obtain ⟨e, s⟩ := p
    intro acc hd hdisj hacc
    obtain ⟨hdh, hdt⟩ := List.pairwise_cons.mp hd
    have hk : s ∉ acc.map Prod.fst := hdisj (e, s) (List.mem_cons_self _ _)
    have hperm1 : (insertGreater acc s e).Perm ((s, e) :: acc) :=
      insertGreater_perm acc s e hk
    have hsorted1 : (insertGreater acc s e).Pairwise (fun a b => b.1 < a.1) :=
      insertGreater_sorted acc s e hacc
    have hdisj1 : ∀ q ∈ t, q.2 ∉ (insertGreater acc s e).map Prod.fst := by
      intro q hq hmem
      have h2 : q.2 ∈ ((s, e) :: acc).map Prod.fst :=
        (hperm1.map Prod.fst).mem_iff.mp hmem
      rcases List.mem_cons.mp h2 with h3 | h3
      · exact hdh q.2 (List.mem_map_of_mem Prod.snd hq) h3.symm
      · exact hdisj q (List.mem_cons_of_mem _ hq) h3
    obtain ⟨hs2, hp2⟩ := ih (insertGreater acc s e) hdt hdisj1 hsorted1
    refine ⟨hs2, ?_⟩
    have h4 : (t.map (fun p => (p.2, p.1)) ++ insertGreater acc s e).Perm
        (t.map (fun p => (p.2, p.1)) ++ (s, e) :: acc) :=
      List.Perm.append_left _ hperm1
    have h5 : (t.map (fun p => (p.2, p.1)) ++ (s, e) :: acc).Perm
        ((s, e) :: (t.map (fun p => (p.2, p.1)) ++ acc)) :=
      List.perm_middle
    exact (hp2.trans (h4.trans h5))

/-- C5 (counterexample): two extensions of equal size collapse: the
mapping `{a ↦ 5, b ↦ 5}` has two extensions, but the size-keyed
`std::map` insert drops the second (`insert` is a no-op on a present
key), so the report has a single line — not every extension present in
the mapping is listed. -/
theorem spec_C5_cex :
    sorted_ext [("a", 5), ("b", 5)] = [(5, "a")] ∧
    (print_sorted_extensions [("a", 5), ("b", 5)]).length = 1 ∧
    ([("a", 5), ("b", 5)] : ExtMap).length = 2 ∧ ¬ (1 : Nat) = 2 := by
  refine ⟨rfl, rfl, rfl, by decide⟩

/-- C5 (amended): provided all sizes in the mapping are pairwise distinct,
the report lists exactly the entries of the mapping (as a permutation,
hence each extension exactly once) in strictly decreasing size order, one
line `<ext>: <formatted size>` per entry; when two extensions share a
size, all but the first-processed one are dropped. -/
theorem spec_C5 (m : ExtMap)
    (hd : (m.map Prod.snd).Pairwise (fun a b => ¬ a = b)) :
    ((sorted_ext m).map (fun q => (q.2, q.1))).Perm m ∧
    ((sorted_ext m).map Prod.fst).Pairwise (fun a b => b < a) ∧
    print_sorted_extensions m =
      (sorted_ext m).map (fun q => q.2 ++ ": " ++ format_size q.1) := by
  obtain ⟨hs, hp⟩ := sorted_ext_aux m [] hd (by simp) (by simp)
  refine ⟨?_, ?_, rfl⟩
  · have h1 : (sorted_ext m).Perm (m.map (fun p => (p.2, p.1))) := by
      simpa [sorted_ext] using hp
    have h2 := h1.map (fun q : Nat × String => (q.2, q.1))
    refine h2.trans ?_
    have h3 : (m.map (fun p : String × Nat => (p.2, p.1))).map
        (fun q : Nat × String => (q.2, q.1)) = m := by
      rw [List.map_map]
      have hc : ((fun q : Nat × String => (q.2, q.1)) ∘
          fun p : String × Nat => (p.2, p.1)) = id := by
        funext p
        rfl
      rw [hc, List.map_id]
    rw [h3]
  · rw [List.pairwise_map]
    exact hs.imp (fun h => h)

/-- C5 (witness): the amended claim applied to a concrete mapping with
distinct sizes 1024 and 1000. -/
theorem spec_C5_wit :
    ((sorted_ext [("a", 1024), ("b", 1000)]).map (fun q => (q.2, q.1))).Perm
      [("a", 1024), ("b", 1000)] ∧
    ((sorted_ext [("a", 1024), ("b", 1000)]).map Prod.fst).Pairwise
      (fun a b => b < a) :=
  ⟨(spec_C5 [("a", 1024), ("b", 1000)] (by decide)).1,
   (spec_C5 [("a", 1024), ("b", 1000)] (by decide)).2.1⟩

/-- What the driver can observe about the typed path: `none` when
`fs::exists` is false, otherwise the entry the path designates. -/
def fsIsDirectory : Option Entry → Bool
  | some (.dir _ _ _) => true
  | _ => false

def fsExists : Option Entry → Bool
  | some _ => true
  | none => false

/-- diskstat `main`'s gate
`if (fs::exists(path) && fs::is_directory(path)) { ...analyze... } else { error }`:
`some` of the report when the analysis pipeline ran, `none` when the
driver printed `Invalid directory path` and fell through to the
repeat prompt. -/
def diskstatHandlePath (p : String) (o : Option Entry) : Option (Nat × ExtMap) :=
  if fsExists o && fsIsDirectory o then o.map (diskstatReport p) else none

/-- What dirchk's `main` runs `get_disk_usage` on: a nonexistent path
makes `fs::directory_iterator` throw, i.e. one error record and an empty
result, like any other unopenable path. -/
def gduAt (p : String) (o : Option Entry) : DiskUsage :=
  match o with
  | some e => get_disk_usage p e
  | none => ⟨0, [], [p]⟩

/-- The tree view dirchk's `main` prints for the typed path. -/
def ptvAt (p name : String) (total : Nat) (o : Option Entry) : List String :=
  match o with
  | some e => print_tree_view p name 0 total e
  | none => [treeLine 0 name 0 total]

/-- dirchk `main`: it validates nothing — whatever was typed goes through
`get_disk_usage` and `print_tree_view`. -/
def dirchkMain (p : String) (o : Option Entry) : DiskUsage × List String :=
  (gduAt p o, ptvAt p p (gduAt p o).size o)

/-- C8 (counterexample): on a nonexistent path, dirchk's driver still
invokes the analysis: `get_disk_usage` runs (recording one access error)
and the tree view prints a `0.00 B` root line, instead of returning to a
prompt without analyzing (dirchk has no path validation and no prompt
loop at all). -/
theorem spec_C8_cex :
    dirchkMain "p" none = (⟨0, [], ["p"]⟩, [treeLine 0 "p" 0 0]) ∧
    (dirchkMain "p" none).2.length = 1 ∧ ¬ (1 : Nat) = 0 :=
  ⟨rfl, rfl, by decide⟩

/-- C8 (amended): the diskstat driver validates: for a path that does not
exist or is not a directory it runs no analysis (and re-prompts), while
the dirchk driver runs the analysis regardless, which terminates without
crashing, yielding zero totals and exactly one access-error record for the
invalid path. -/
theorem spec_C8 (p : String) (o : Option Entry) (h : fsIsDirectory o = false) :
    diskstatHandlePath p o = none ∧ (dirchkMain p o).1 = ⟨0, [], [p]⟩ := by
  constructor
  · rw [diskstatHandlePath, h]
    simp
  · match o with
    | none => rfl
    | some (.dir n r cs) => simp [fsIsDirectory] at h
    | some (.file n s ok) => rfl
    | some (.other n) => rfl

/-- C8 (witness): the amended claim evaluated at a path designating a
regular file (exists, but not a directory). -/
theorem spec_C8_wit :
    diskstatHandlePath "q" (some (.file "q" 3 true)) = none ∧
    (dirchkMain "q" (some (.file "q" 3 true))).1 = ⟨0, [], ["q"]⟩ :=
  spec_C8 "q" (some (.file "q" 3 true)) (by decide)
